import Mathlib

/-!
Shallow embedding of the URL parser in `src/saba_core/src/url.rs`.

Rust strings are modelled as `List Char`; the methods of `Url` are
translated one-to-one.  The Rust standard-library primitives used by
the source (`str::contains`, `str::trim_start_matches`,
`str::splitn(2, _)`, `str::find` followed by slicing at the found
index) are given explicit executable models below.
-/

namespace Saba

/-- The literal scheme marker `"http://"` used throughout `url.rs`. -/
def httpScheme : List Char := "http://".toList

/-- The error message returned by `Url::parse` when the scheme check fails. -/
def errMsg : List Char := "Only HTTP scheme is supported.".toList

/-- Model of Rust `str::contains(pat)` for a literal pattern: `pat`
occurs as a contiguous substring anywhere in the string. -/
def containsSub (pat : List Char) : List Char → Bool
  | [] => pat.isEmpty
  | c :: rest => pat.isPrefixOf (c :: rest) || containsSub pat rest

/-- Fuel-indexed worker for `trim_start_matches`: while the pattern is a
leading run it is dropped again; the fuel (the string length suffices,
each step removes at least one character) guarantees termination. -/
def trimStartAux (pat : List Char) : Nat → List Char → List Char
  | 0, s => s
  | fuel + 1, s =>
    if pat.isPrefixOf s && (!pat.isEmpty) then
      trimStartAux pat fuel (List.drop pat.length s)
    else s

/-- Model of Rust `s.trim_start_matches(pat)`: repeatedly removes the
pattern from the front of the string while it matches. -/
def trim_start_matches (s pat : List Char) : List Char :=
  trimStartAux pat s.length s

/-- Split at the first occurrence of the character `c`: `none` when `c`
does not occur, otherwise the pieces before and after that occurrence.
This models both `splitn(2, c)` and `find(c)` followed by slicing. -/
def splitFirst (c : Char) : List Char → Option (List Char × List Char)
  | [] => none
  | x :: xs =>
    if x = c then some ([], xs)
    else
      match splitFirst c xs with
      | none => none
      | some ab => some (x :: ab.1, ab.2)

/-- Model of Rust `s.splitn(2, c).collect::<Vec<_>>()`: the first piece
(always present, so indexing the source vector at 0 is in bounds) and
the optional remainder after the first `c`. -/
def splitn2 (c : Char) (s : List Char) : List Char × Option (List Char) :=
  match splitFirst c s with
  | none => (s, none)
  | some ab => (ab.1, some ab.2)

/-- The `Url` struct of `url.rs` (fields `url`, `host`, `port`, `path`,
`searchpart`). -/
structure Url where
  url : List Char
  host : List Char
  port : List Char
  path : List Char
  searchpart : List Char
deriving DecidableEq

/-- `Url::new`: stores the raw string, all derived fields empty. -/
def Url.new (url : List Char) : Url :=
  { url := url, host := [], port := [], path := [], searchpart := [] }

/-- `Url::is_http`: `self.url.contains("http://")`. -/
def Url.is_http (self : Url) : Bool :=
  containsSub httpScheme self.url

/-- `Url::extract_host`: strip the scheme, split on the first `/`, and
within the first piece take everything before the first `:` (or the
whole piece when there is no `:`). -/
def Url.extract_host (self : Url) : List Char :=
  let url_parts := splitn2 '/' (trim_start_matches self.url httpScheme)
  match splitFirst ':' url_parts.1 with
  | some ab => ab.1
  | none => url_parts.1

/-- `Url::extract_port`: as `extract_host`, but take everything after
the first `:`, defaulting to `"80"` when there is no `:`. -/
def Url.extract_port (self : Url) : List Char :=
  let url_parts := splitn2 '/' (trim_start_matches self.url httpScheme)
  match splitFirst ':' url_parts.1 with
  | some ab => ab.2
  | none => "80".toList

/-- `Url::extract_path`: the part of the remainder (after the first `/`)
before the first `?`; empty when there is no `/`. -/
def Url.extract_path (self : Url) : List Char :=
  let url_parts := splitn2 '/' (trim_start_matches self.url httpScheme)
  match url_parts.2 with
  | none => []
  | some rest => (splitn2 '?' rest).1

/-- `Url::extract_searchpart`: the part of the remainder after the first
`?`; empty when there is no `/` or no `?`. -/
def Url.extract_searchpart (self : Url) : List Char :=
  let url_parts := splitn2 '/' (trim_start_matches self.url httpScheme)
  match url_parts.2 with
  | none => []
  | some rest =>
    match (splitn2 '?' rest).2 with
    | none => []
    | some q => q

/-- `Url::parse`: returns the updated receiver (Rust mutates `self` in
place and returns a clone) together with the `Result`.  The field
assignments are performed sequentially exactly as in the source. -/
def Url.parse (self : Url) : Url × Except (List Char) Url :=
  if self.is_http then
    let self1 := { self with host := self.extract_host }
    let self2 := { self1 with port := self1.extract_port }
    let self3 := { self2 with path := self2.extract_path }
    let self4 := { self3 with searchpart := self3.extract_searchpart }
    (self4, Except.ok self4)
  else
    (self, Except.error errMsg)

/-- The round-trip reconstruction formula stated by the spec (section 8):
host, then a colon and the port when the port is not `"80"`, then a
slash and the path, then a question mark and the search part when the
search part is non-empty. -/
def reconstruct (u : Url) : List Char :=
  u.host ++ ((if u.port = "80".toList then [] else ':' :: u.port) ++
    '/' :: (u.path ++ (if u.searchpart = [] then [] else '?' :: u.searchpart)))

/-! Helper lemmas about the string primitives. -/

/-- Boolean prefix test characterized by an append decomposition. -/
theorem isPrefixOf_iff (p : List Char) :
    ∀ s : List Char, p.isPrefixOf s = true ↔ ∃ t, s = p ++ t := by
  induction p with
  | nil => intro s; simp [List.isPrefixOf]
  | cons a as ih =>
    intro s
    cases s with
    | nil => simp [List.isPrefixOf]
    | cons b bs =>
      simp only [List.isPrefixOf, Bool.and_eq_true, beq_iff_eq, ih, List.cons_append,
        List.cons.injEq]
      constructor
      · rintro ⟨rfl, t, rfl⟩; exact ⟨t, rfl, rfl⟩
      · rintro ⟨t, rfl, rfl⟩; exact ⟨rfl, t, rfl⟩

/-- A list is a leading run of itself followed by anything. -/
theorem isPrefixOf_append_self (p t : List Char) : p.isPrefixOf (p ++ t) = true :=
  (isPrefixOf_iff p (p ++ t)).mpr ⟨t, rfl⟩

/-- A leading occurrence is in particular a substring occurrence. -/
theorem containsSub_of_leading (p s : List Char) (h : p.isPrefixOf s = true) :
    containsSub p s = true := by
  cases s with
  | nil =>
    obtain ⟨t, ht⟩ := (isPrefixOf_iff p []).mp h
    rcases List.append_eq_nil.mp ht.symm with ⟨rfl, rfl⟩
    rfl
  | cons c rest => simp [containsSub, h]

/-- `splitFirst` finds nothing exactly when the character is absent. -/
theorem splitFirst_eq_none (c : Char) :
    ∀ s : List Char, splitFirst c s = none ↔ c ∉ s := by
  intro s
  induction s with
  | nil => simp [splitFirst]
  | cons x xs ih =>
    by_cases hx : x = c
    · subst hx
      simp [splitFirst]
    · simp only [splitFirst, if_neg hx, List.mem_cons]
      cases hsp : splitFirst c xs with
      | none => simp [hsp] at ih; simp [ih, hx, Ne.symm hx]
      | some ab => simp [hsp] at ih; simp [ih, hx, Ne.symm hx]

/-- `splitFirst` decomposes the string at the first occurrence: the
two pieces reassemble the input and the first piece avoids `c`. -/
theorem splitFirst_eq_some (c : Char) :
    ∀ s a b : List Char, splitFirst c s = some (a, b) → s = a ++ c :: b ∧ c ∉ a := by
  intro s
  induction s with
  | nil => intro a b h; simp [splitFirst] at h
  | cons x xs ih =>
    intro a b h
    by_cases hx : x = c
    · subst hx
      simp [splitFirst] at h
      obtain ⟨rfl, rfl⟩ := h
      simp
    · simp only [splitFirst, if_neg hx] at h
      cases hsp : splitFirst c xs with
      | none => rw [hsp] at h; simp at h
      | some ab =>
        rw [hsp] at h
        simp only [Option.some.injEq, Prod.mk.injEq] at h
        obtain ⟨h1, rfl⟩ := h
        obtain ⟨hre, hmem⟩ := ih ab.1 ab.2 hsp
        subst h1
        constructor
        · rw [List.cons_append, hre]
        · intro hc
          rcases List.mem_cons.mp hc with h1 | h2
          · exact hx h1.symm
          · exact hmem h2

/-- Converse direction: splitting a string built around its first `c`
recovers exactly the two pieces. -/
theorem splitFirst_append (c : Char) :
    ∀ a b : List Char, c ∉ a → splitFirst c (a ++ c :: b) = some (a, b) := by
  intro a
  induction a with
  | nil => intro b _; simp [splitFirst]
  | cons x xs ih =>
    intro b hmem
    simp only [List.mem_cons, not_or] at hmem
    obtain ⟨hcx, hxs⟩ := hmem
    have hx : ¬x = c := fun h => hcx h.symm
    rw [List.cons_append]
    simp only [splitFirst, if_neg hx]
    rw [ih b hxs]

/-- Unfolding equation for `trimStartAux` at positive fuel. -/
theorem trimStartAux_succ (pat : List Char) (n : Nat) (s : List Char) :
    trimStartAux pat (n + 1) s =
      if pat.isPrefixOf s && (!pat.isEmpty) then trimStartAux pat n (List.drop pat.length s)
      else s := rfl

/-- `trimStartAux` leaves the empty string unchanged at any fuel. -/
theorem trimStartAux_nil (pat : List Char) : ∀ fuel, trimStartAux pat fuel [] = [] := by
  intro fuel
  cases fuel with
  | zero => rfl
  | succ n =>
    rw [trimStartAux_succ]
    cases pat with
    | nil => simp
    | cons p ps => simp [List.isPrefixOf]

/-- The fuel is irrelevant once it is at least the string length. -/
theorem trimStartAux_congr (pat : List Char) :
    ∀ f1 f2 s, s.length ≤ f1 → s.length ≤ f2 →
      trimStartAux pat f1 s = trimStartAux pat f2 s := by
  intro f1
  induction f1 with
  | zero =>
    intro f2 s h1 _
    have hs : s = [] := List.eq_nil_of_length_eq_zero (Nat.le_zero.mp h1)
    subst hs
    rw [trimStartAux_nil, trimStartAux_nil]
  | succ n ih =>
    intro f2 s h1 h2
    cases f2 with
    | zero =>
      have hs : s = [] := List.eq_nil_of_length_eq_zero (Nat.le_zero.mp h2)
      subst hs
      rw [trimStartAux_nil, trimStartAux_nil]
    | succ m =>
      rw [trimStartAux_succ, trimStartAux_succ]
      by_cases hg : (pat.isPrefixOf s && (!pat.isEmpty)) = true
      · rw [if_pos hg, if_pos hg]
        simp only [Bool.and_eq_true] at hg
        obtain ⟨hpre, hne⟩ := hg
        have hg : (pat.isPrefixOf s && (!pat.isEmpty)) = true := by rw [hpre]; simp [hne]
        have hplen : 1 ≤ pat.length := by
          cases pat with
          | nil => simp at hne
          | cons p ps => simp
        obtain ⟨t, rfl⟩ := (isPrefixOf_iff pat s).mp hpre
        rw [List.drop_left]
        have hl1 : t.length ≤ n := by rw [List.length_append] at h1; omega
        have hl2 : t.length ≤ m := by rw [List.length_append] at h2; omega
        exact ih m t hl1 hl2
      · rw [if_neg hg, if_neg hg]

/-- `trimStartAux` with enough fuel removes exactly a maximal leading
run of copies of the pattern. -/
theorem trimStartAux_split (pat : List Char) (hp : pat ≠ []) :
    ∀ fuel s, s.length ≤ fuel →
      ∃ n, s = (List.replicate n pat).flatten ++ trimStartAux pat fuel s ∧
        pat.isPrefixOf (trimStartAux pat fuel s) = false := by
  intro fuel
  induction fuel with
  | zero =>
    intro s h
    have hs : s = [] := List.eq_nil_of_length_eq_zero (Nat.le_zero.mp h)
    subst hs
    refine ⟨0, by simp [trimStartAux], ?_⟩
    cases pat with
    | nil => exact absurd rfl hp
    | cons p ps => rfl
  | succ n ih =>
    intro s h
    by_cases hg : (pat.isPrefixOf s && (!pat.isEmpty)) = true
    · have hg2 := hg
      simp only [Bool.and_eq_true] at hg2
      obtain ⟨hpre, hne⟩ := hg2
      obtain ⟨t, rfl⟩ := (isPrefixOf_iff pat s).mp hpre
      have hplen : 1 ≤ pat.length := by
        cases pat with
        | nil => exact absurd rfl hp
        | cons p ps => simp
      have hl : t.length ≤ n := by rw [List.length_append] at h; omega
      obtain ⟨k, hk, hkpre⟩ := ih t hl
      refine ⟨k + 1, ?_, ?_⟩
      · rw [trimStartAux_succ, if_pos hg, List.drop_left]
        rw [List.replicate_succ, List.flatten_cons, List.append_assoc]
        conv_lhs => rw [hk]
      · rw [trimStartAux_succ, if_pos hg, List.drop_left]
        exact hkpre
    · refine ⟨0, ?_, ?_⟩
      · rw [trimStartAux_succ, if_neg hg]
        simp
      · rw [trimStartAux_succ, if_neg hg]
        cases hpre : pat.isPrefixOf s with
        | false => rfl
        | true =>
          exfalso
          apply hg
          rw [hpre]
          cases pat with
          | nil => exact absurd rfl hp
          | cons p ps => rfl

/-- Stripping the scheme removes exactly a maximal leading run of
`"http://"` copies. -/
theorem trim_split (s : List Char) :
    ∃ n, s = (List.replicate n httpScheme).flatten ++ trim_start_matches s httpScheme ∧
      httpScheme.isPrefixOf (trim_start_matches s httpScheme) = false :=
  trimStartAux_split httpScheme (by decide) s.length s (Nat.le_refl _)

/-- The stripped string never starts with the scheme marker again. -/
theorem trim_not_leading (s : List Char) :
    httpScheme.isPrefixOf (trim_start_matches s httpScheme) = false := by
  obtain ⟨n, _, h⟩ := trim_split s
  exact h

/-- Stripping is a no-op when the pattern is not a leading run. -/
theorem trim_of_not_leading (pat s : List Char) (h : pat.isPrefixOf s = false) :
    trim_start_matches s pat = s := by
  cases s with
  | nil => rfl
  | cons c r =>
    show trimStartAux pat ((c :: r).length) (c :: r) = c :: r
    rw [List.length_cons, trimStartAux_succ, if_neg]
    simp [h]

/-- Stripping commutes with one explicit leading copy of the scheme. -/
theorem trim_append_scheme (t : List Char) :
    trim_start_matches (httpScheme ++ t) httpScheme = trim_start_matches t httpScheme := by
  show trimStartAux httpScheme ((httpScheme ++ t).length) (httpScheme ++ t) = _
  have hlen : (httpScheme ++ t).length = (t.length + 6) + 1 := by
    rw [List.length_append]
    show 7 + t.length = t.length + 6 + 1
    omega
  rw [hlen, trimStartAux_succ, if_pos, List.drop_left]
  · exact trimStartAux_congr httpScheme (t.length + 6) t.length t (by omega) (Nat.le_refl _)
  · rw [isPrefixOf_append_self]
    rfl

/-- `extract_port` reads only the `url` field. -/
theorem extract_port_congr (u1 u2 : Url) (h : u1.url = u2.url) :
    u1.extract_port = u2.extract_port := by
  unfold Url.extract_port
  rw [h]

/-- `extract_path` reads only the `url` field. -/
theorem extract_path_congr (u1 u2 : Url) (h : u1.url = u2.url) :
    u1.extract_path = u2.extract_path := by
  unfold Url.extract_path
  rw [h]

/-- `extract_searchpart` reads only the `url` field. -/
theorem extract_searchpart_congr (u1 u2 : Url) (h : u1.url = u2.url) :
    u1.extract_searchpart = u2.extract_searchpart := by
  unfold Url.extract_searchpart
  rw [h]

/-- `parse` on a value failing the scheme check: the error result, with
the receiver untouched. -/
theorem parse_err_eq (self : Url) (h : self.is_http = false) :
    self.parse = (self, Except.error errMsg) := by
  simp [Url.parse, h]

/-- `parse` on a value passing the scheme check: all four derived
fields are overwritten with the extraction results and the updated
value is returned both as new state and inside `Ok`. -/
theorem parse_ok_eq (self : Url) (h : self.is_http = true) :
    self.parse =
      (⟨self.url, self.extract_host, self.extract_port, self.extract_path,
        self.extract_searchpart⟩,
       Except.ok ⟨self.url, self.extract_host, self.extract_port, self.extract_path,
        self.extract_searchpart⟩) := by
  simp [Url.parse, h]
  exact ⟨extract_port_congr _ _ rfl, extract_path_congr _ _ rfl,
    extract_searchpart_congr _ _ rfl⟩

/-! The claim theorems. -/

/-- C1: `parse` returns the `UnsupportedScheme` error (with message
"Only HTTP scheme is supported.") exactly when the input does not
contain the substring `"http://"` anywhere; no other error ever
occurs, and any input containing the marker (even mid-string) parses
successfully. -/
theorem C1_scheme_substring (s : List Char) :
    (∀ e, ((Url.new s).parse).2 = Except.error e ↔
      (e = errMsg ∧ containsSub httpScheme s = false)) ∧
    (containsSub httpScheme s = true → ∃ u, ((Url.new s).parse).2 = Except.ok u) := by
  have hh : (Url.new s).is_http = containsSub httpScheme s := rfl
  constructor
  · intro e
    cases hc : containsSub httpScheme s with
    | false =>
      rw [parse_err_eq (Url.new s) (hh.trans hc)]
      constructor
      · intro he
        exact ⟨(Except.error.inj he).symm, rfl⟩
      · rintro ⟨rfl, -⟩
        rfl
    | true =>
      rw [parse_ok_eq (Url.new s) (hh.trans hc)]
      simp
  · intro hc
    exact ⟨_, by rw [parse_ok_eq (Url.new s) (hh.trans hc)]⟩

/-- Witness for C1 at a concrete input: the marker sits mid-string in
`"xhttp://host"` and parsing still succeeds. -/
theorem C1_scheme_substring_witness :
    ∃ u, ((Url.new ("xhttp://host".toList)).parse).2 = Except.ok u :=
  (C1_scheme_substring ("xhttp://host".toList)).2 (by decide)

/-- C3: the seven concrete scenarios of the spec, evaluated on the
embedded parser. -/
theorem C3_concrete_scenarios :
    ((Url.new ("http://example.com".toList)).parse).2 =
      Except.ok ⟨"http://example.com".toList, "example.com".toList, "80".toList, [], []⟩ ∧
    ((Url.new ("http://example.com:8888".toList)).parse).2 =
      Except.ok ⟨"http://example.com:8888".toList, "example.com".toList, "8888".toList,
        [], []⟩ ∧
    ((Url.new ("http://example.com:8888/index.html".toList)).parse).2 =
      Except.ok ⟨"http://example.com:8888/index.html".toList, "example.com".toList,
        "8888".toList, "index.html".toList, []⟩ ∧
    ((Url.new ("http://example.com/index.html".toList)).parse).2 =
      Except.ok ⟨"http://example.com/index.html".toList, "example.com".toList, "80".toList,
        "index.html".toList, []⟩ ∧
    ((Url.new ("http://example.com:8888/index.html?a=123&b=456".toList)).parse).2 =
      Except.ok ⟨"http://example.com:8888/index.html?a=123&b=456".toList,
        "example.com".toList, "8888".toList, "index.html".toList, "a=123&b=456".toList⟩ ∧
    ((Url.new ("example.com".toList)).parse).2 = Except.error errMsg ∧
    ((Url.new ("https://example.com:8888/index.html".toList)).parse).2 =
      Except.error errMsg :=
  ⟨rfl, rfl, rfl, rfl, rfl, rfl, rfl⟩

/-- C7: parsing is idempotent, both as two calls on values built from
the same raw string and as a repeated call on the updated value. -/
theorem C7_idempotent (s : List Char) :
    (Url.new s).parse = (Url.new s).parse ∧
    (((Url.new s).parse).1).parse = (Url.new s).parse := by
  refine ⟨rfl, ?_⟩
  cases hh : (Url.new s).is_http with
  | false =>
    rw [parse_err_eq _ hh]
    exact parse_err_eq _ hh
  | true =>
    have h2 : (⟨(Url.new s).url, (Url.new s).extract_host, (Url.new s).extract_port,
        (Url.new s).extract_path, (Url.new s).extract_searchpart⟩ : Url).is_http = true := hh
    rw [parse_ok_eq _ hh]
    dsimp only
    rw [parse_ok_eq _ h2]
    rfl

/-- C8: the raw `url` field is retained verbatim by `parse`, both in
the returned state and in the success value. -/
theorem C8_raw_verbatim (self : Url) :
    ((self.parse).1).url = self.url ∧
    ∀ u, (self.parse).2 = Except.ok u → u.url = self.url := by
  cases hh : self.is_http with
  | false =>
    rw [parse_err_eq self hh]
    refine ⟨rfl, ?_⟩
    intro u h
    simp at h
  | true =>
    rw [parse_ok_eq self hh]
    refine ⟨rfl, ?_⟩
    intro u h
    simp only [Except.ok.injEq] at h
    subst h
    rfl

/-- Witness for C8 at a concrete input. -/
theorem C8_raw_verbatim_witness :
    (⟨"http://example.com".toList, "example.com".toList, "80".toList, [], []⟩ : Url).url =
      (Url.new ("http://example.com".toList)).url :=
  (C8_raw_verbatim (Url.new ("http://example.com".toList))).2
    ⟨"http://example.com".toList, "example.com".toList, "80".toList, [], []⟩ (by rfl)

/-- C9: `parse` is total — every input yields either a success or the
single scheme error; every split decomposes its input at valid
boundaries (the pieces reassemble the input); empty substrings are
returned as valid empty fields (for input `"http://"` the host, path
and search part are all empty and parsing still succeeds). -/
theorem C9_total_and_safe (s : List Char) :
    ((∃ u, ((Url.new s).parse).2 = Except.ok u) ∨
      ((Url.new s).parse).2 = Except.error errMsg) ∧
    (∀ c t a b, splitFirst c t = some (a, b) → t = a ++ c :: b) ∧
    ((Url.new httpScheme).parse).2 = Except.ok ⟨httpScheme, [], "80".toList, [], []⟩ := by
  refine ⟨?_, ?_, rfl⟩
  · cases hh : (Url.new s).is_http with
    | false =>
      right
      rw [parse_err_eq _ hh]
    | true =>
      left
      exact ⟨_, by rw [parse_ok_eq _ hh]⟩
  · intro c t a b h
    exact (splitFirst_eq_some c t a b h).1

/-- Witness for C9 at a concrete split. -/
theorem C9_total_and_safe_witness :
    ("a/b".toList) = ("a".toList) ++ '/' :: ("b".toList) :=
  (C9_total_and_safe []).2.1 '/' ("a/b".toList) ("a".toList) ("b".toList) (by decide)

/-- C10: when `parse` fails, the receiver is returned unchanged — no
field has been written. -/
theorem C10_error_atomic (self : Url) (e : List Char)
    (h : (self.parse).2 = Except.error e) :
    (self.parse).1 = self := by
  cases hh : self.is_http with
  | false =>
    rw [parse_err_eq self hh]
  | true =>
    rw [parse_ok_eq self hh] at h
    simp at h

/-- Witness for C10 at a concrete failing input. -/
theorem C10_error_atomic_witness :
    ((Url.new ("example.com".toList)).parse).1 = Url.new ("example.com".toList) :=
  C10_error_atomic (Url.new ("example.com".toList)) errMsg (by rfl)

/-- C4 counterexample: on `"http://http://example.com"` the stripping
removes both leading copies of the marker — the claim asserts the
second one is not stripped — and the parsed host is accordingly
`"example.com"`, not `"http:"`-related text. -/
theorem C4_single_strip_cex :
    trim_start_matches ("http://http://example.com".toList) httpScheme ≠
      "http://example.com".toList ∧
    trim_start_matches ("http://http://example.com".toList) httpScheme =
      "example.com".toList ∧
    ((Url.new ("http://http://example.com".toList)).parse).2 =
      Except.ok ⟨"http://http://example.com".toList, "example.com".toList, "80".toList,
        [], []⟩ :=
  ⟨by decide, rfl, rfl⟩

/-- C4 amended: scheme stripping removes a maximal run of consecutive
leading copies of the literal `"http://"` — every immediately repeated
leading copy is removed, not just the first — and when the literal is
not a leading run (for example when it occurs only mid-string) the
stripping is a no-op. -/
theorem C4_strip_maximal_run (s : List Char) :
    (∃ n, s = (List.replicate n httpScheme).flatten ++ trim_start_matches s httpScheme ∧
      httpScheme.isPrefixOf (trim_start_matches s httpScheme) = false) ∧
    (httpScheme.isPrefixOf s = false → trim_start_matches s httpScheme = s) :=
  ⟨trim_split s, trim_of_not_leading httpScheme s⟩

/-- Witness for C4 (amended) at a concrete input with the marker only
mid-string. -/
theorem C4_strip_maximal_run_witness :
    trim_start_matches ("xhttp://host".toList) httpScheme = "xhttp://host".toList :=
  (C4_strip_maximal_run ("xhttp://host".toList)).2 (by decide)

/-- `extract_host` of a freshly constructed value, in terms of the
split primitives. -/
theorem new_extract_host (s : List Char) :
    (Url.new s).extract_host =
      (match splitFirst ':' ((splitn2 '/' (trim_start_matches s httpScheme)).1) with
       | some ab => ab.1
       | none => (splitn2 '/' (trim_start_matches s httpScheme)).1) := rfl

/-- `extract_port` of a freshly constructed value. -/
theorem new_extract_port (s : List Char) :
    (Url.new s).extract_port =
      (match splitFirst ':' ((splitn2 '/' (trim_start_matches s httpScheme)).1) with
       | some ab => ab.2
       | none => "80".toList) := rfl

/-- `extract_path` of a freshly constructed value. -/
theorem new_extract_path (s : List Char) :
    (Url.new s).extract_path =
      (match (splitn2 '/' (trim_start_matches s httpScheme)).2 with
       | none => []
       | some rest => (splitn2 '?' rest).1) := rfl

/-- `extract_searchpart` of a freshly constructed value. -/
theorem new_extract_searchpart (s : List Char) :
    (Url.new s).extract_searchpart =
      (match (splitn2 '/' (trim_start_matches s httpScheme)).2 with
       | none => []
       | some rest =>
         match (splitn2 '?' rest).2 with
         | none => []
         | some q => q) := rfl

/-- C5: in a successful parse the authority — the stripped string up to
the first slash — fully determines host and port: with no colon the
host is the whole authority and the port is exactly `"80"`; with a
colon the host is the part before the first colon and the port is
everything after it, numeric or not. -/
theorem C5_host_port_split (s : List Char) (u : Url)
    (h : ((Url.new s).parse).2 = Except.ok u) :
    ((':' ∉ (splitn2 '/' (trim_start_matches s httpScheme)).1 →
        u.host = (splitn2 '/' (trim_start_matches s httpScheme)).1 ∧
        u.port = "80".toList) ∧
      (∀ a b, (splitn2 '/' (trim_start_matches s httpScheme)).1 = a ++ ':' :: b →
        ':' ∉ a → u.host = a ∧ u.port = b)) := by
  have hh : (Url.new s).is_http = true := by
    cases hcase : (Url.new s).is_http with
    | true => rfl
    | false =>
      rw [parse_err_eq _ hcase] at h
      simp at h
  rw [parse_ok_eq _ hh] at h
  simp only [Except.ok.injEq] at h
  subst h
  constructor
  · intro hmem
    have hsp : splitFirst ':' ((splitn2 '/' (trim_start_matches s httpScheme)).1) = none :=
      (splitFirst_eq_none ':' _).mpr hmem
    constructor
    · show (Url.new s).extract_host = _
      rw [new_extract_host, hsp]
    · show (Url.new s).extract_port = _
      rw [new_extract_port, hsp]
  · intro a b hdec hmem
    have hsp : splitFirst ':' ((splitn2 '/' (trim_start_matches s httpScheme)).1) =
        some (a, b) := by
      rw [hdec]
      exact splitFirst_append ':' a b hmem
    constructor
    · show (Url.new s).extract_host = _
      rw [new_extract_host, hsp]
    · show (Url.new s).extract_port = _
      rw [new_extract_port, hsp]

/-- Witness for C5 at a concrete input with an explicit port. -/
theorem C5_host_port_split_witness :
    (⟨"http://example.com:8888/x".toList, "example.com".toList, "8888".toList, "x".toList,
      []⟩ : Url).host = "example.com".toList ∧
    (⟨"http://example.com:8888/x".toList, "example.com".toList, "8888".toList, "x".toList,
      []⟩ : Url).port = "8888".toList :=
  (C5_host_port_split ("http://example.com:8888/x".toList)
    ⟨"http://example.com:8888/x".toList, "example.com".toList, "8888".toList, "x".toList, []⟩
    (by rfl)).2 ("example.com".toList) ("8888".toList) (by decide) (by decide)

/-- C2: any input that literally starts with `"http://"` parses
successfully. -/
theorem C2_leading_scheme_ok (t : List Char) :
    ∃ u, ((Url.new (httpScheme ++ t)).parse).2 = Except.ok u := by
  have hh : (Url.new (httpScheme ++ t)).is_http = true :=
    containsSub_of_leading httpScheme (httpScheme ++ t) (isPrefixOf_append_self httpScheme t)
  exact ⟨_, by rw [parse_ok_eq _ hh]⟩

/-- The scheme marker written out as characters. -/
theorem httpScheme_eq : httpScheme = ['h', 't', 't', 'p', ':', '/', '/'] := rfl

/-- The scheme marker is a leading run of any string with that explicit
seven-character head. -/
theorem isPrefixOf_scheme_explicit (z : List Char) :
    httpScheme.isPrefixOf ('h' :: 't' :: 't' :: 'p' :: ':' :: '/' :: '/' :: z) = true := by
  simp [httpScheme, List.isPrefixOf]

/-- A string of the shape `host ++ '/' :: tail` with no colon in `host`
cannot start with the scheme marker (whose fifth character is a colon
and whose sixth is a slash). -/
theorem scheme_not_leading_slash (host tail : List Char) (hc : ':' ∉ host) :
    httpScheme.isPrefixOf (host ++ '/' :: tail) = false := by
  cases hpre : httpScheme.isPrefixOf (host ++ '/' :: tail) with
  | false => rfl
  | true =>
    exfalso
    obtain ⟨t, ht⟩ := (isPrefixOf_iff _ _).mp hpre
    rw [httpScheme_eq] at ht
    cases host with
    | nil =>
      rw [List.nil_append] at ht
      injection ht with h1 _
      exact absurd h1 (by decide)
    | cons a h1 =>
      rw [List.cons_append] at ht
      injection ht with _ ht
      cases h1 with
      | nil =>
        rw [List.nil_append] at ht
        injection ht with h2 _
        exact absurd h2 (by decide)
      | cons b h2 =>
        rw [List.cons_append] at ht
        injection ht with _ ht
        cases h2 with
        | nil =>
          rw [List.nil_append] at ht
          injection ht with h3 _
          exact absurd h3 (by decide)
        | cons c h3 =>
          rw [List.cons_append] at ht
          injection ht with _ ht
          cases h3 with
          | nil =>
            rw [List.nil_append] at ht
            injection ht with h4 _
            exact absurd h4 (by decide)
          | cons d h4 =>
            rw [List.cons_append] at ht
            injection ht with _ ht
            cases h4 with
            | nil =>
              rw [List.nil_append] at ht
              injection ht with h5 _
              exact absurd h5 (by decide)
            | cons e h5 =>
              rw [List.cons_append] at ht
              injection ht with h5e _
              subst h5e
              exact hc (by simp)

/-- A string of the shape `host ++ ':' :: (port ++ '/' :: tail)` with
no colon in `host` and no slash in `port` cannot start with the scheme
marker, except in the one excluded corner case where the host is
exactly `"http"`, the port is empty and the tail starts with a slash. -/
theorem scheme_not_leading_colon (host port tail : List Char) (hc : ':' ∉ host)
    (hp : '/' ∉ port)
    (hx : ¬(host = ['h', 't', 't', 'p'] ∧ port = [] ∧ ∃ r, tail = '/' :: r)) :
    httpScheme.isPrefixOf (host ++ ':' :: (port ++ '/' :: tail)) = false := by
  cases hpre : httpScheme.isPrefixOf (host ++ ':' :: (port ++ '/' :: tail)) with
  | false => rfl
  | true =>
    exfalso
    obtain ⟨t, ht⟩ := (isPrefixOf_iff _ _).mp hpre
    rw [httpScheme_eq] at ht
    cases host with
    | nil =>
      rw [List.nil_append] at ht
      injection ht with h1 _
      exact absurd h1 (by decide)
    | cons a h1 =>
      rw [List.cons_append] at ht
      injection ht with ha ht
      cases h1 with
      | nil =>
        rw [List.nil_append] at ht
        injection ht with h2 _
        exact absurd h2 (by decide)
      | cons b h2 =>
        rw [List.cons_append] at ht
        injection ht with hb ht
        cases h2 with
        | nil =>
          rw [List.nil_append] at ht
          injection ht with h3 _
          exact absurd h3 (by decide)
        | cons c h3 =>
          rw [List.cons_append] at ht
          injection ht with hcc ht
          cases h3 with
          | nil =>
            rw [List.nil_append] at ht
            injection ht with h4 _
            exact absurd h4 (by decide)
          | cons d h4 =>
            rw [List.cons_append] at ht
            injection ht with hd ht
            cases h4 with
            | nil =>
              rw [List.nil_append] at ht
              injection ht with _ ht
              cases port with
              | nil =>
                rw [List.nil_append] at ht
                injection ht with _ ht
                subst ha hb hcc hd
                exact hx ⟨rfl, rfl, t, ht⟩
              | cons p0 pr =>
                rw [List.cons_append] at ht
                injection ht with hp0 _
                subst hp0
                exact hp (by simp)
            | cons e h5 =>
              rw [List.cons_append] at ht
              injection ht with h5e _
              subst h5e
              exact hc (by simp)

/-- `splitn2` when the delimiter is absent. -/
theorem splitn2_of_none (c : Char) (s : List Char) (h : splitFirst c s = none) :
    splitn2 c s = (s, none) := by
  simp [splitn2, h]

/-- `splitn2` when the delimiter is present. -/
theorem splitn2_of_some (c : Char) (s a b : List Char) (h : splitFirst c s = some (a, b)) :
    splitn2 c s = (a, some b) := by
  simp [splitn2, h]

/-- Host extraction when the authority has no colon. -/
theorem extract_host_of_none (X A : List Char) (r : Option (List Char))
    (hsn : splitn2 '/' (trim_start_matches X httpScheme) = (A, r))
    (hcl : splitFirst ':' A = none) :
    (Url.new X).extract_host = A := by
  rw [new_extract_host, hsn]
  dsimp only
  rw [hcl]

/-- Host extraction when the authority has a colon. -/
theorem extract_host_of_some (X A : List Char) (r : Option (List Char))
    (hsn : splitn2 '/' (trim_start_matches X httpScheme) = (A, r))
    (a b : List Char) (hcl : splitFirst ':' A = some (a, b)) :
    (Url.new X).extract_host = a := by
  rw [new_extract_host, hsn]
  dsimp only
  rw [hcl]

/-- Port extraction when the authority has no colon: the default. -/
theorem extract_port_of_none (X A : List Char) (r : Option (List Char))
    (hsn : splitn2 '/' (trim_start_matches X httpScheme) = (A, r))
    (hcl : splitFirst ':' A = none) :
    (Url.new X).extract_port = "80".toList := by
  rw [new_extract_port, hsn]
  dsimp only
  rw [hcl]

/-- Port extraction when the authority has a colon. -/
theorem extract_port_of_some (X A : List Char) (r : Option (List Char))
    (hsn : splitn2 '/' (trim_start_matches X httpScheme) = (A, r))
    (a b : List Char) (hcl : splitFirst ':' A = some (a, b)) :
    (Url.new X).extract_port = b := by
  rw [new_extract_port, hsn]
  dsimp only
  rw [hcl]

/-- Path extraction when there is no slash. -/
theorem extract_path_of_nosl (X A : List Char)
    (hsn : splitn2 '/' (trim_start_matches X httpScheme) = (A, none)) :
    (Url.new X).extract_path = [] := by
  rw [new_extract_path, hsn]

/-- Path extraction when there is a slash but no question mark. -/
theorem extract_path_of_noq (X A rest : List Char)
    (hsn : splitn2 '/' (trim_start_matches X httpScheme) = (A, some rest))
    (hq : splitFirst '?' rest = none) :
    (Url.new X).extract_path = rest := by
  rw [new_extract_path, hsn]
  dsimp only
  rw [splitn2_of_none '?' rest hq]

/-- Path extraction when there is a slash and a question mark. -/
theorem extract_path_of_q (X A rest p q : List Char)
    (hsn : splitn2 '/' (trim_start_matches X httpScheme) = (A, some rest))
    (hq : splitFirst '?' rest = some (p, q)) :
    (Url.new X).extract_path = p := by
  rw [new_extract_path, hsn]
  dsimp only
  rw [splitn2_of_some '?' rest p q hq]

/-- Search extraction when there is no slash. -/
theorem extract_search_of_nosl (X A : List Char)
    (hsn : splitn2 '/' (trim_start_matches X httpScheme) = (A, none)) :
    (Url.new X).extract_searchpart = [] := by
  rw [new_extract_searchpart, hsn]

/-- Search extraction when there is a slash but no question mark. -/
theorem extract_search_of_noq (X A rest : List Char)
    (hsn : splitn2 '/' (trim_start_matches X httpScheme) = (A, some rest))
    (hq : splitFirst '?' rest = none) :
    (Url.new X).extract_searchpart = [] := by
  rw [new_extract_searchpart, hsn]
  dsimp only
  rw [splitn2_of_none '?' rest hq]

/-- Search extraction when there is a slash and a question mark. -/
theorem extract_search_of_q (X A rest p q : List Char)
    (hsn : splitn2 '/' (trim_start_matches X httpScheme) = (A, some rest))
    (hq : splitFirst '?' rest = some (p, q)) :
    (Url.new X).extract_searchpart = q := by
  rw [new_extract_searchpart, hsn]
  dsimp only
  rw [splitn2_of_some '?' rest p q hq]

/-- Re-parsing `"http://" ++ R` where `R` decomposes as an authority
without slashes, a slash and a tail: the four extracted components are
determined by the splits of the decomposition. -/
theorem reparse_components (R auth2 tail2 hostV portV pathV searchV : List Char)
    (hReq : R = auth2 ++ '/' :: tail2)
    (hnp : httpScheme.isPrefixOf R = false)
    (hslnot : '/' ∉ auth2)
    (hcl : (splitFirst ':' auth2 = none ∧ hostV = auth2 ∧ portV = "80".toList) ∨
      splitFirst ':' auth2 = some (hostV, portV))
    (hq : (splitFirst '?' tail2 = none ∧ pathV = tail2 ∧ searchV = []) ∨
      splitFirst '?' tail2 = some (pathV, searchV)) :
    ∃ u2, ((Url.new (httpScheme ++ R)).parse).2 = Except.ok u2 ∧
      u2.host = hostV ∧ u2.port = portV ∧ u2.path = pathV ∧ u2.searchpart = searchV := by
  subst hReq
  have hcont : (Url.new (httpScheme ++ (auth2 ++ '/' :: tail2))).is_http = true :=
    containsSub_of_leading _ _ (isPrefixOf_append_self _ _)
  have hstrip : trim_start_matches (httpScheme ++ (auth2 ++ '/' :: tail2)) httpScheme =
      auth2 ++ '/' :: tail2 :=
    (trim_append_scheme _).trans (trim_of_not_leading _ _ hnp)
  have hsn : splitn2 '/'
      (trim_start_matches (httpScheme ++ (auth2 ++ '/' :: tail2)) httpScheme) =
      (auth2, some tail2) := by
    rw [hstrip]
    exact splitn2_of_some '/' _ auth2 tail2 (splitFirst_append '/' auth2 tail2 hslnot)
  have hhost : (Url.new (httpScheme ++ (auth2 ++ '/' :: tail2))).extract_host = hostV := by
    rcases hcl with ⟨hn, rfl, -⟩ | hs2
    · exact extract_host_of_none _ _ _ hsn hn
    · exact extract_host_of_some _ _ _ hsn _ _ hs2
  have hport : (Url.new (httpScheme ++ (auth2 ++ '/' :: tail2))).extract_port = portV := by
    rcases hcl with ⟨hn, -, rfl⟩ | hs2
    · exact extract_port_of_none _ _ _ hsn hn
    · exact extract_port_of_some _ _ _ hsn _ _ hs2
  have hpath : (Url.new (httpScheme ++ (auth2 ++ '/' :: tail2))).extract_path = pathV := by
    rcases hq with ⟨hn, rfl, -⟩ | hq2
    · exact extract_path_of_noq _ _ _ hsn hn
    · exact extract_path_of_q _ _ _ _ _ hsn hq2
  have hsearch : (Url.new (httpScheme ++ (auth2 ++ '/' :: tail2))).extract_searchpart =
      searchV := by
    rcases hq with ⟨hn, -, rfl⟩ | hq2
    · exact extract_search_of_noq _ _ _ hsn hn
    · exact extract_search_of_q _ _ _ _ _ hsn hq2
  exact ⟨_, by rw [parse_ok_eq _ hcont], hhost, hport, hpath, hsearch⟩

/-- Round-trip, slash case, shared colon sub-case analysis: when the
stripped input splits as `auth ++ '/' :: rest`, re-parsing the scheme
plus the reconstructed string recovers the same four components. -/
theorem roundtrip_colon_part (s auth rest TAIL pathV searchV : List Char)
    (hpre : httpScheme.isPrefixOf (trim_start_matches s httpScheme) = false)
    (hst_eq : trim_start_matches s httpScheme = auth ++ '/' :: rest)
    (hauthsl : '/' ∉ auth)
    (hsn : splitn2 '/' (trim_start_matches s httpScheme) = (auth, some rest))
    (hqarg : (splitFirst '?' TAIL = none ∧ pathV = TAIL ∧ searchV = []) ∨
      splitFirst '?' TAIL = some (pathV, searchV))
    (hTslash : ∀ r, TAIL = '/' :: r → ∃ z, rest = '/' :: z) :
    ∃ u2, ((Url.new (httpScheme ++ ((Url.new s).extract_host ++
        ((if (Url.new s).extract_port = "80".toList then []
          else ':' :: (Url.new s).extract_port) ++ '/' :: TAIL)))).parse).2 = Except.ok u2 ∧
      u2.host = (Url.new s).extract_host ∧ u2.port = (Url.new s).extract_port ∧
      u2.path = pathV ∧ u2.searchpart = searchV := by
  cases hcl : splitFirst ':' auth with
  | none =>
    have hcmem : ':' ∉ auth := (splitFirst_eq_none _ _).mp hcl
    rw [extract_host_of_none _ _ _ hsn hcl, extract_port_of_none _ _ _ hsn hcl, if_pos rfl]
    simp only [List.nil_append]
    exact reparse_components _ auth TAIL _ _ _ _ rfl
      (scheme_not_leading_slash auth TAIL hcmem) hauthsl
      (Or.inl ⟨hcl, rfl, rfl⟩) hqarg
  | some ab =>
    obtain ⟨a, b⟩ := ab
    obtain ⟨hauth_eq, hamem⟩ := splitFirst_eq_some ':' _ a b hcl
    have hsa : '/' ∉ a := by
      intro hm
      apply hauthsl
      rw [hauth_eq]
      exact List.mem_append.mpr (Or.inl hm)
    have hsb : '/' ∉ b := by
      intro hm
      apply hauthsl
      rw [hauth_eq]
      exact List.mem_append.mpr (Or.inr (List.mem_cons.mpr (Or.inr hm)))
    rw [extract_host_of_some _ _ _ hsn a b hcl, extract_port_of_some _ _ _ hsn a b hcl]
    by_cases hb80 : b = "80".toList
    · subst hb80
      rw [if_pos rfl]
      simp only [List.nil_append]
      exact reparse_components _ a TAIL _ _ _ _ rfl
        (scheme_not_leading_slash a TAIL hamem) hsa
        (Or.inl ⟨(splitFirst_eq_none ':' a).mpr hamem, rfl, rfl⟩) hqarg
    · rw [if_neg hb80]
      simp only [List.cons_append]
      refine reparse_components _ (a ++ ':' :: b) TAIL _ _ _ _ ?_ ?_ ?_
        (Or.inr (splitFirst_append ':' a b hamem)) hqarg
      · simp [List.append_assoc]
      · have hx : ¬(a = ['h', 't', 't', 'p'] ∧ b = [] ∧ ∃ r, TAIL = '/' :: r) := by
          rintro ⟨ha4, hb0, r, hTr⟩
          obtain ⟨z, hz⟩ := hTslash r hTr
          have htrue : httpScheme.isPrefixOf (trim_start_matches s httpScheme) = true := by
            rw [hst_eq, hauth_eq, ha4, hb0, hz]
            have hnorm : ((['h', 't', 't', 'p'] : List Char) ++ ':' :: ([] : List Char)) ++
                '/' :: ('/' :: z) =
                'h' :: 't' :: 't' :: 'p' :: ':' :: '/' :: '/' :: z := by simp
            rw [hnorm]
            exact isPrefixOf_scheme_explicit z
          exact Bool.noConfusion (htrue.symm.trans hpre)
        exact scheme_not_leading_colon a b TAIL hamem hsb hx
      · intro hm
        rcases List.mem_append.mp hm with hm | hm
        · exact hsa hm
        · rcases List.mem_cons.mp hm with hm | hm
          · exact absurd hm (by decide)
          · exact hsb hm

/-- C6: for every successful parse, prepending the scheme to the
reconstructed string `host + (":" + port if port is not "80") + "/" +
path + ("?" + search if search non-empty)` parses again to the same
four components — the reconstruction denotes an equivalent
authority+path+query. -/
theorem C6_roundtrip (s : List Char) (u : Url)
    (h : ((Url.new s).parse).2 = Except.ok u) :
    ∃ u2, ((Url.new (httpScheme ++ reconstruct u)).parse).2 = Except.ok u2 ∧
      u2.host = u.host ∧ u2.port = u.port ∧ u2.path = u.path ∧
      u2.searchpart = u.searchpart := by
  have hh : (Url.new s).is_http = true := by
    cases hcase : (Url.new s).is_http with
    | true => rfl
    | false =>
      rw [parse_err_eq _ hcase] at h
      simp at h
  rw [parse_ok_eq _ hh] at h
  simp only [Except.ok.injEq] at h
  subst h
  have hpre := trim_not_leading s
  simp only [reconstruct]
  cases hsl : splitFirst '/' (trim_start_matches s httpScheme) with
  | none =>
    have hslash : '/' ∉ trim_start_matches s httpScheme := (splitFirst_eq_none _ _).mp hsl
    have hsn : splitn2 '/' (trim_start_matches s httpScheme) =
        (trim_start_matches s httpScheme, none) := splitn2_of_none '/' _ hsl
    rw [extract_path_of_nosl _ _ hsn, extract_search_of_nosl _ _ hsn, if_pos rfl]
    simp only [List.nil_append, List.append_nil]
    cases hcl : splitFirst ':' (trim_start_matches s httpScheme) with
    | none =>
      have hcmem : ':' ∉ trim_start_matches s httpScheme := (splitFirst_eq_none _ _).mp hcl
      rw [extract_host_of_none _ _ _ hsn hcl, extract_port_of_none _ _ _ hsn hcl, if_pos rfl]
      simp only [List.nil_append]
      exact reparse_components _ (trim_start_matches s httpScheme) [] _ _ _ _ rfl
        (scheme_not_leading_slash _ [] hcmem) hslash
        (Or.inl ⟨hcl, rfl, rfl⟩) (Or.inl ⟨rfl, rfl, rfl⟩)
    | some ab =>
      obtain ⟨a, b⟩ := ab
      obtain ⟨hst_eq, hamem⟩ := splitFirst_eq_some ':' _ a b hcl
      have hsa : '/' ∉ a := by
        intro hm
        apply hslash
        rw [hst_eq]
        exact List.mem_append.mpr (Or.inl hm)
      have hsb : '/' ∉ b := by
        intro hm
        apply hslash
        rw [hst_eq]
        exact List.mem_append.mpr (Or.inr (List.mem_cons.mpr (Or.inr hm)))
      rw [extract_host_of_some _ _ _ hsn a b hcl, extract_port_of_some _ _ _ hsn a b hcl]
      by_cases hb80 : b = "80".toList
      · subst hb80
        rw [if_pos rfl]
        simp only [List.nil_append]
        exact reparse_components _ a [] _ _ _ _ rfl
          (scheme_not_leading_slash a [] hamem) hsa
          (Or.inl ⟨(splitFirst_eq_none ':' a).mpr hamem, rfl, rfl⟩)
          (Or.inl ⟨rfl, rfl, rfl⟩)
      · rw [if_neg hb80]
        simp only [List.cons_append]
        refine reparse_components _ (a ++ ':' :: b) [] _ _ _ _ ?_ ?_ ?_
          (Or.inr (splitFirst_append ':' a b hamem)) (Or.inl ⟨rfl, rfl, rfl⟩)
        · simp [List.append_assoc]
        · refine scheme_not_leading_colon a b [] hamem hsb ?_
          rintro ⟨-, -, r, hr⟩
          simp at hr
        · intro hm
          rcases List.mem_append.mp hm with hm | hm
          · exact hsa hm
          · rcases List.mem_cons.mp hm with hm | hm
            · exact absurd hm (by decide)
            · exact hsb hm
  | some ar =>
    obtain ⟨auth, rest⟩ := ar
    obtain ⟨hst_eq, hauthsl⟩ := splitFirst_eq_some '/' _ auth rest hsl
    have hsn : splitn2 '/' (trim_start_matches s httpScheme) = (auth, some rest) :=
      splitn2_of_some '/' _ auth rest hsl
    cases hq : splitFirst '?' rest with
    | none =>
      rw [extract_path_of_noq _ _ _ hsn hq, extract_search_of_noq _ _ _ hsn hq, if_pos rfl]
      simp only [List.append_nil]
      exact roundtrip_colon_part s auth rest rest rest [] hpre hst_eq hauthsl hsn
        (Or.inl ⟨hq, rfl, rfl⟩) (fun r hr => ⟨r, hr⟩)
    | some pq =>
      obtain ⟨p, q⟩ := pq
      obtain ⟨hrest_eq, hpq⟩ := splitFirst_eq_some '?' _ p q hq
      rw [extract_path_of_q _ _ _ _ _ hsn hq, extract_search_of_q _ _ _ _ _ hsn hq]
      by_cases hqe : q = []
      · subst hqe
        rw [if_pos rfl]
        simp only [List.append_nil]
        exact roundtrip_colon_part s auth rest p p [] hpre hst_eq hauthsl hsn
          (Or.inl ⟨(splitFirst_eq_none '?' p).mpr hpq, rfl, rfl⟩)
          (fun r hr => ⟨r ++ '?' :: [], by rw [hrest_eq, hr]; simp⟩)
      · rw [if_neg hqe]
        refine roundtrip_colon_part s auth rest (p ++ '?' :: q) p q hpre hst_eq hauthsl hsn
          (Or.inr (splitFirst_append '?' p q hpq)) ?_
        intro r hr
        cases p with
        | nil =>
          rw [List.nil_append] at hr
          injection hr with h1 _
          exact absurd h1 (by decide)
        | cons p0 pr =>
          rw [List.cons_append] at hr
          injection hr with h1 _
          subst h1
          exact ⟨pr ++ '?' :: q, by rw [hrest_eq]; simp⟩

/-- Witness for C6 at a concrete input exercising port, path and
search. -/
theorem C6_roundtrip_witness :
    ∃ u2, ((Url.new (httpScheme ++ reconstruct
        ⟨"http://example.com:8888/index.html?a=123".toList, "example.com".toList,
          "8888".toList, "index.html".toList, "a=123".toList⟩)).parse).2 = Except.ok u2 ∧
      u2.host = (⟨"http://example.com:8888/index.html?a=123".toList, "example.com".toList,
          "8888".toList, "index.html".toList, "a=123".toList⟩ : Url).host ∧
      u2.port = (⟨"http://example.com:8888/index.html?a=123".toList, "example.com".toList,
          "8888".toList, "index.html".toList, "a=123".toList⟩ : Url).port ∧
      u2.path = (⟨"http://example.com:8888/index.html?a=123".toList, "example.com".toList,
          "8888".toList, "index.html".toList, "a=123".toList⟩ : Url).path ∧
      u2.searchpart = (⟨"http://example.com:8888/index.html?a=123".toList,
          "example.com".toList, "8888".toList, "index.html".toList,
          "a=123".toList⟩ : Url).searchpart :=
  C6_roundtrip ("http://example.com:8888/index.html?a=123".toList)
    ⟨"http://example.com:8888/index.html?a=123".toList, "example.com".toList,
      "8888".toList, "index.html".toList, "a=123".toList⟩ (by rfl)

end Saba
